import Mathlib

/-!
Shallow embedding of `app.py` (SpedBusMD API): an event recorder and a
stale-arrival finalizer over an append-only `ScanLogs` table.

Modelling conventions:
* SQL `DATETIME` values (`EventTimeUtc`) are modelled as `Int`; the
  configured timeout (`NO_SHOW_MINUTES`) and cutoffs use the same unit, so
  `cutoff = now - minutes` models `utc_now() - timedelta(minutes=minutes)`.
* A server-clock reading taken during a request is the explicit `now`
  argument of the corresponding function; `utc_now()` calls made inside one
  request handler are identified with that single reading.
* The `ScanLogs` table is a list of rows plus the next identity value; the
  identity column assigns `nextId` to each insert and increments it.
* A database connection with `autocommit=False` is modelled by returning,
  next to the response, the *committed* state: a handler that commits
  returns the transaction's final rows, a handler that rolls back (or closes
  the connection without committing) returns the state it started from.
* Python strings are modelled as `String`; the character-level operations
  (`strip`, `lower`, `replace`, `re.sub`) are embedded as executable
  functions over `List Char` with ASCII semantics.
-/

deriving instance DecidableEq for Except

namespace SpedBus

/-- HTTP error raised by `fastapi.HTTPException`. -/
structure HTTPException where
  status : Nat
  detail : String
deriving DecidableEq

/-! ### Python string helpers (ASCII semantics) -/

/-- Characters removed by Python `str.strip()` (ASCII whitespace). -/
def pyIsSpace (c : Char) : Bool :=
  c == ' ' || c == '\t' || c == '\n' || c == '\r' || c == Char.ofNat 11 || c == Char.ofNat 12

/-- Python `str.strip()` on the character list. -/
def pyStripChars (cs : List Char) : List Char :=
  ((cs.dropWhile pyIsSpace).reverse.dropWhile pyIsSpace).reverse

/-- Python `str.strip()`. -/
def pyStrip (s : String) : String :=
  String.mk (pyStripChars s.data)

/-- Python `str.lower()` on an ASCII character. -/
def pyLowerChar (c : Char) : Char :=
  if 'A' ≤ c ∧ c ≤ 'Z' then Char.ofNat (c.toNat + 32) else c

/-- Python `str.upper()` on an ASCII character. -/
def pyUpperChar (c : Char) : Char :=
  if 'a' ≤ c ∧ c ≤ 'z' then Char.ofNat (c.toNat - 32) else c

/-- Python `str.upper()`. -/
def pyUpper (s : String) : String :=
  String.mk (s.data.map pyUpperChar)

/-! ### Event-type vocabulary (`VALID_EVENT_TYPES`, `EVENT_TYPE_ALIASES`) -/

/-- Embeds `VALID_EVENT_TYPES`, the set of stored event kinds. -/
def VALID_EVENT_TYPES : List String :=
  ["ARRIVED", "RIDE", "NO_CALL", "NO_SHOW"]

/-- Embeds `EVENT_TYPE_ALIASES`: friendly inputs mapped to stored values. -/
def EVENT_TYPE_ALIASES : List (String × String) :=
  [("arrived", "ARRIVED"),
   ("arrival", "ARRIVED"),
   ("waiting", "ARRIVED"),
   ("wait", "ARRIVED"),
   ("ride", "RIDE"),
   ("boarded", "RIDE"),
   ("onboard", "RIDE"),
   ("no_call", "NO_CALL"),
   ("nocall", "NO_CALL"),
   ("no_show", "NO_SHOW"),
   ("noshow", "NO_SHOW")]

/-- Dict lookup `EVENT_TYPE_ALIASES.get raw`. -/
def aliasLookup (k : String) : Option String :=
  (EVENT_TYPE_ALIASES.find? (fun p => p.1 == k)).map (fun p => p.2)

/-- The key computed by `normalize_event_type` before lookup:
`raw.strip().lower()`, spaces and hyphens to underscores, then
`re.sub(r"[^a-z_]", "", raw)`. -/
def normalizeKey (raw : String) : String :=
  let cs := pyStripChars raw.data
  let cs := cs.map pyLowerChar
  let cs := cs.map (fun c => if c = ' ' then '_' else if c = '-' then '_' else c)
  let cs := cs.filter (fun c => ('a' ≤ c && c ≤ 'z') || c == '_')
  String.mk cs

/-- Error message of `normalize_event_type` for unrecognized input. -/
def invalidEventTypeMsg : String :=
  "Invalid event_type. Use: arrived | ride | no_call | no_show"

/-- Embeds `normalize_event_type` from `app.py`: alias lookup on the normalized
key, then a direct check of the uppercased key against
`VALID_EVENT_TYPES`, else a 400 `HTTPException`. -/
def normalize_event_type (raw : String) : Except HTTPException String :=
  let k := normalizeKey raw
  match aliasLookup k with
  | some event => .ok event
  | none =>
    let upper := pyUpper k
    if upper ∈ VALID_EVENT_TYPES then .ok upper
    else .error ⟨400, invalidEventTypeMsg⟩

/-- Embeds `normalize_student_code` from `app.py`: strip, 400 if empty. -/
def normalize_student_code (code : String) : Except HTTPException String :=
  let c := pyStrip code
  if c = "" then .error ⟨400, "student_code is required"⟩ else .ok c

/-! ### Data model -/

/-- One row of `dbo.ScanLogs` (append-only event log). -/
structure ScanLog where
  LogId : Nat
  StudentCode : String
  StudentName : String
  DOB : String
  BusNumber : String
  EventType : String
  EventTimeUtc : Int
  DriverCode : Option String
  AideCode : Option String
  StopCode : Option String
  Notes : Option String
deriving DecidableEq

/-- The `dbo.ScanLogs` table: rows plus the next identity value. -/
structure ScanLogDB where
  rows : List ScanLog
  nextId : Nat
deriving DecidableEq

/-- One row of `dbo.Students` (columns read by `app.py`). -/
structure Student where
  StudentId : Nat
  StudentCode : String
  StudentName : String
  DOB : String
  BusNumber : String
  ParentPhone : Option String
deriving DecidableEq

/-- Request body of `POST /scan` (`ScanRequest` model; note it has no
timestamp field, so a client cannot supply one). -/
structure ScanRequest where
  student_code : String
  event_type : String
  driver_code : Option String
  aide_code : Option String
  stop_code : Option String
  notes : Option String
deriving DecidableEq

/-- A deferred `schedule_auto_no_show` task queued via
`background.add_task(schedule_auto_no_show, student_code, now_utc, NO_SHOW_MINUTES)`. -/
structure BgTask where
  student_code : String
  arrived_time_utc : Int
  minutes : Int
deriving DecidableEq

/-- Seconds slept by the task before acting: `time.sleep(max(0, minutes * 60))`. -/
def taskDelaySeconds (t : BgTask) : Int :=
  max 0 (t.minutes * 60)

/-! ### Latest-event queries -/

/-- The winner of two rows under `ORDER BY EventTimeUtc DESC, LogId DESC`. -/
def laterRow (a b : ScanLog) : ScanLog :=
  if a.EventTimeUtc < b.EventTimeUtc then b
  else if b.EventTimeUtc < a.EventTimeUtc then a
  else if a.LogId < b.LogId then b
  else a

/-- The query `SELECT TOP (1) ... ORDER BY EventTimeUtc DESC, LogId DESC` over a row
list: the row maximal under the (timestamp, identifier) lexicographic
order. -/
def pickLatest : List ScanLog → Option ScanLog
  | [] => none
  | r :: rs =>
    match pickLatest rs with
    | none => some r
    | some b => some (laterRow r b)

/-- Rows of one student: `WHERE StudentCode = ?`. -/
def rowsFor (s : String) (rows : List ScanLog) : List ScanLog :=
  rows.filter (fun r => r.StudentCode == s)

/-- The single latest event for a student code (the re-check query of the
finalizer, and the query of `schedule_auto_no_show`). -/
def latestFor (rows : List ScanLog) (s : String) : Option ScanLog :=
  pickLatest (rowsFor s rows)

/-- Aggregate `MAX(EventTimeUtc)` over a row list (the `Latest` CTE, per student). -/
def maxTime : List ScanLog → Option Int
  | [] => none
  | r :: rs =>
    match maxTime rs with
    | none => some r.EventTimeUtc
    | some t => some (max r.EventTimeUtc t)

/-! ### Candidate scan (`candidates_sql`) -/

/-- Membership in `PickOne` before `TOP (1000)`: the row's timestamp is the
maximum for its student code (`LatestRows`), the kind is `ARRIVED` and the
timestamp is at most the cutoff. Note there is no `LogId` tie-break here,
so several rows of one student can qualify when they tie at the maximum
timestamp. -/
def candPred (rows : List ScanLog) (cutoff : Int) (r : ScanLog) : Bool :=
  decide (maxTime (rowsFor r.StudentCode rows) = some r.EventTimeUtc) &&
  (r.EventType == "ARRIVED") &&
  decide (r.EventTimeUtc ≤ cutoff)

/-- Insertion step of a stable sort by ascending `EventTimeUtc`. -/
def insAsc (a : ScanLog) : List ScanLog → List ScanLog
  | [] => [a]
  | b :: l => if b.EventTimeUtc ≤ a.EventTimeUtc then b :: insAsc a l else a :: b :: l

/-- Sort `ORDER BY EventTimeUtc ASC` (insertion sort; SQL fixes no order among
equal timestamps, this model picks a stable one). -/
def sortAsc : List ScanLog → List ScanLog
  | [] => []
  | r :: rs => insAsc r (sortAsc rs)

/-- The candidate query of `finalize_expired_arrivals`:
`SELECT TOP (1000) ... ORDER BY EventTimeUtc ASC` over the qualifying
latest rows. -/
def candidateScan (rows : List ScanLog) (cutoff : Int) : List ScanLog :=
  (sortAsc (rows.filter (candPred rows cutoff))).take 1000

/-! ### The finalizer pass -/

/-- Row inserted by the finalizer for candidate `c`: kind `NO_SHOW`,
timestamp the current instant, denormalized and actor fields carried over
from the candidate row, system note recording the timeout. -/
def mkNoShow (c : ScanLog) (now : Int) (id : Nat) (minutes : Int) : ScanLog :=
  { LogId := id
    StudentCode := c.StudentCode
    StudentName := c.StudentName
    DOB := c.DOB
    BusNumber := c.BusNumber
    EventType := "NO_SHOW"
    EventTimeUtc := now
    DriverCode := c.DriverCode
    AideCode := c.AideCode
    StopCode := c.StopCode
    Notes := some ("Auto NO_SHOW after " ++ toString minutes ++ " min wait") }

/-- Working state of one finalizer pass: the transaction's view of the
table (the re-check query sees this pass's own uncommitted inserts) and
the running `inserted` counter. -/
structure FinState where
  rows : List ScanLog
  nextId : Nat
  inserted : Nat
deriving DecidableEq

/-- Per-candidate body of the loop in `finalize_expired_arrivals`:
re-fetch the single latest event for the candidate's student code
(`check_sql`); skip unless it is still `ARRIVED` with timestamp at most
the cutoff; otherwise insert the `NO_SHOW` row (`insert_sql`). -/
def finStep (cutoff now minutes : Int) (st : FinState) (c : ScanLog) : FinState :=
  match latestFor st.rows c.StudentCode with
  | none => st
  | some latest =>
    if latest.EventType = "ARRIVED" ∧ latest.EventTimeUtc ≤ cutoff then
      { rows := st.rows ++ [mkNoShow c now st.nextId minutes]
        nextId := st.nextId + 1
        inserted := st.inserted + 1 }
    else st

/-- Embeds `finalize_expired_arrivals(conn, minutes)`: compute the cutoff, scan
for candidates once, then run the re-check/insert loop; returns the
transaction's table state and the number of `NO_SHOW` rows inserted. -/
def finalize_expired_arrivals (db : ScanLogDB) (now minutes : Int) : ScanLogDB × Nat :=
  let cutoff := now - minutes
  let cands := candidateScan db.rows cutoff
  let st := cands.foldl (finStep cutoff now minutes)
    { rows := db.rows, nextId := db.nextId, inserted := 0 }
  ({ rows := st.rows, nextId := st.nextId }, st.inserted)

/-! ### The finalizer pass under storage faults

`pyodbc` raises on a failed statement; the route handlers never commit on
the exception path, and closing an `autocommit=False` connection without
committing rolls the transaction back.  `failOn k` says whether the
`k`-th `INSERT` of the pass raises; `none` models the raised exception
aborting the pass. -/

/-- Step `finStep` with fault injection on the insert statement. -/
def finStepF (cutoff now minutes : Int) (failOn : Nat → Bool)
    (st : Option FinState) (c : ScanLog) : Option FinState :=
  match st with
  | none => none
  | some st =>
    match latestFor st.rows c.StudentCode with
    | none => some st
    | some latest =>
      if latest.EventType = "ARRIVED" ∧ latest.EventTimeUtc ≤ cutoff then
        if failOn st.inserted then none
        else some
          { rows := st.rows ++ [mkNoShow c now st.nextId minutes]
            nextId := st.nextId + 1
            inserted := st.inserted + 1 }
      else st

/-- Route `POST /finalize-expired-arrivals` (`finalize_now`): one finalizer pass
on a fresh connection; `conn.commit()` on success, otherwise the exception
propagates and the connection closes uncommitted (rollback).  Returns the
committed table state and the HTTP outcome. -/
def finalize_now (db : ScanLogDB) (now minutes : Int) (failOn : Nat → Bool) :
    ScanLogDB × Except String Nat :=
  let cutoff := now - minutes
  let cands := candidateScan db.rows cutoff
  match cands.foldl (finStepF cutoff now minutes failOn)
      (some { rows := db.rows, nextId := db.nextId, inserted := 0 }) with
  | none => (db, .error "storage fault")
  | some st => ({ rows := st.rows, nextId := st.nextId }, .ok st.inserted)

/-! ### The deferred background task -/

/-- Embeds `schedule_auto_no_show(student_code, arrived_time_utc, minutes)` after
its `time.sleep`: re-fetch the latest event for the student; insert a
`NO_SHOW` row and commit only if it is still `ARRIVED` and at most
`fireTime - minutes`, else roll back.  The whole body runs inside
`try: ... except Exception: pass`, so a storage fault (`fault := true`)
is swallowed and leaves the committed state unchanged; the function is
total and returns no error to any caller. -/
def schedule_auto_no_show (db : ScanLogDB) (t : BgTask) (fireTime : Int)
    (fault : Bool) : ScanLogDB :=
  if fault then db
  else
    match latestFor db.rows t.student_code with
    | none => db
    | some latest =>
      if latest.EventType = "ARRIVED" ∧ latest.EventTimeUtc ≤ fireTime - t.minutes then
        { rows := db.rows ++
            [{ LogId := db.nextId
               StudentCode := t.student_code
               StudentName := latest.StudentName
               DOB := latest.DOB
               BusNumber := latest.BusNumber
               EventType := "NO_SHOW"
               EventTimeUtc := fireTime
               DriverCode := latest.DriverCode
               AideCode := latest.AideCode
               StopCode := latest.StopCode
               Notes := some ("Auto NO_SHOW after " ++ toString t.minutes ++ " min wait (bg)") }]
          nextId := db.nextId + 1 }
      else db

/-! ### Route handlers -/

/-- Route `POST /scan` (`scan_student`): normalize inputs (400 before any DB
work), run the inline finalizer pass, look up the student (404 rolls the
transaction back, which also discards the finalizer's inserts), insert the
event row with the server-clock timestamp `now`, commit, and if the
recorded kind is `ARRIVED` queue exactly one background task.  Returns the
committed table state, the HTTP outcome (the persisted row), and the
queued background tasks. -/
def scan_student (students : List Student) (db : ScanLogDB) (req : ScanRequest)
    (now minutes : Int) :
    ScanLogDB × Except HTTPException ScanLog × List BgTask :=
  match normalize_student_code req.student_code with
  | .error e => (db, .error e, [])
  | .ok student_code =>
    match normalize_event_type req.event_type with
    | .error e => (db, .error e, [])
    | .ok event_type =>
      let dbF := (finalize_expired_arrivals db now minutes).1
      match students.find? (fun s => s.StudentCode == student_code) with
      | none => (db, .error ⟨404, "Student not found"⟩, [])
      | some s =>
        let row : ScanLog :=
          { LogId := dbF.nextId
            StudentCode := student_code
            StudentName := s.StudentName
            DOB := s.DOB
            BusNumber := s.BusNumber
            EventType := event_type
            EventTimeUtc := now
            DriverCode := req.driver_code
            AideCode := req.aide_code
            StopCode := req.stop_code
            Notes := req.notes }
        let tasks : List BgTask :=
          if event_type = "ARRIVED" then [⟨student_code, now, minutes⟩] else []
        ({ rows := dbF.rows ++ [row], nextId := dbF.nextId + 1 }, .ok row, tasks)

/-- Insertion step of a sort by `EventTimeUtc DESC, LogId DESC`. -/
def insDesc (a : ScanLog) : List ScanLog → List ScanLog
  | [] => [a]
  | b :: l =>
    if a.EventTimeUtc < b.EventTimeUtc ∨
       (a.EventTimeUtc = b.EventTimeUtc ∧ a.LogId < b.LogId) then b :: insDesc a l
    else a :: b :: l

/-- Sort `ORDER BY EventTimeUtc DESC, LogId DESC`. -/
def sortDesc : List ScanLog → List ScanLog
  | [] => []
  | r :: rs => insDesc r (sortDesc rs)

/-- Route `GET /logs/recent` (`recent_logs`): clamp the limit to `[1, 200]`, run
the inline finalizer pass, select the most recent rows (the transaction's
own view, which includes the pass's uncommitted inserts), then
`conn.rollback()` and close — so the committed table state returned is the
one the request started from. -/
def recent_logs (db : ScanLogDB) (now minutes : Int) (limit : Int) :
    ScanLogDB × List ScanLog :=
  let lim := max 1 (min limit 200)
  let dbF := (finalize_expired_arrivals db now minutes).1
  let view := (sortDesc dbF.rows).take lim.toNat
  (db, view)

/-! ### Concrete instances used as witnesses and counterexamples -/

/-- A stored `ARRIVED` row for student `STU-1001` at time 0. -/
def wArr : ScanLog :=
  { LogId := 0, StudentCode := "STU-1001", StudentName := "Alex"
    DOB := "2015-01-01", BusNumber := "7", EventType := "ARRIVED"
    EventTimeUtc := 0, DriverCode := some "D1", AideCode := none
    StopCode := none, Notes := none }

/-- A later `RIDE` row for the same student. -/
def wRide : ScanLog :=
  { wArr with LogId := 1, EventType := "RIDE", EventTimeUtc := 10 }

/-- A log holding only the stale `ARRIVED` row. -/
def wDB : ScanLogDB := { rows := [wArr], nextId := 1 }

/-- A log where the student's latest event is the terminal `RIDE`. -/
def wDBRide : ScanLogDB := { rows := [wArr, wRide], nextId := 2 }

/-- A log with two `ARRIVED` rows of one student tied at the maximum
timestamp (both qualify in the candidate scan). -/
def wDBTie : ScanLogDB := { rows := [wArr, { wArr with LogId := 1 }], nextId := 2 }

/-- Roster entry without a parent phone on file. -/
def wStudent : Student :=
  { StudentId := 1, StudentCode := "STU-1001", StudentName := "Alex"
    DOB := "2015-01-01", BusNumber := "7", ParentPhone := none }

/-- The same roster entry with a non-empty parent phone on file. -/
def wStudentPhone : Student := { wStudent with ParentPhone := some "555-0100" }

/-- A scan request body recording a boarding. -/
def wReq : ScanRequest :=
  { student_code := " STU-1001 ", event_type := "boarded"
    driver_code := none, aide_code := none, stop_code := none, notes := none }

/-- A scan request body recording an arrival. -/
def wReqArr : ScanRequest := { wReq with event_type := "arrived" }

/-- A queued background task for the student. -/
def wTask : BgTask := { student_code := "STU-1001", arrived_time_utc := 0, minutes := 5 }

/-- Pairwise-distinct student codes (distinguished by length). -/
def cxCode (i : Nat) : String := String.mk (List.replicate (i + 1) 'a')

/-- One stale `ARRIVED` row per student `cxCode i`. -/
def cxRow (i : Nat) : ScanLog :=
  { LogId := i, StudentCode := cxCode i, StudentName := "S", DOB := "D"
    BusNumber := "B", EventType := "ARRIVED", EventTimeUtc := (i : Int)
    DriverCode := none, AideCode := none, StopCode := none, Notes := none }

/-- A log with 1001 students whose latest events are all stale `ARRIVED`
rows: one more than the candidate batch cap `TOP (1000)`. -/
def cxDB : ScanLogDB := { rows := (List.range 1001).map cxRow, nextId := 1001 }

/-! ### Order, identifier-discipline and phase predicates -/

/-- Row `a` sorts no later than `b` under `ORDER BY EventTimeUtc DESC, LogId DESC`. -/
def keyLE (a b : ScanLog) : Prop :=
  a.EventTimeUtc < b.EventTimeUtc ∨
    (a.EventTimeUtc = b.EventTimeUtc ∧ a.LogId ≤ b.LogId)

/-- Strict version of `keyLE`. -/
def keyLT (a b : ScanLog) : Prop :=
  a.EventTimeUtc < b.EventTimeUtc ∨
    (a.EventTimeUtc = b.EventTimeUtc ∧ a.LogId < b.LogId)

/-- Identifier discipline of the working state: every row's identity value
is below the next identity value. -/
def StIds (st : FinState) : Prop :=
  ∀ r ∈ st.rows, r.LogId < st.nextId

/-- Phase A: the pass has not yet converted student `s`; the student's
rows are untouched, lengths and identifiers are consistent. -/
def PhaseA (db : ScanLogDB) (s : String) (st : FinState) : Prop :=
  StIds st ∧ db.nextId ≤ st.nextId ∧
  st.rows.length = db.rows.length + st.inserted ∧
  rowsFor s st.rows = rowsFor s db.rows

/-- Phase B: the pass has converted student `s` exactly once; the new
`NO_SHOW` row is now the student's latest event, so every further
re-check for `s` skips. -/
def PhaseB (db : ScanLogDB) (s : String) (st : FinState) : Prop :=
  StIds st ∧ db.nextId ≤ st.nextId ∧
  st.rows.length = db.rows.length + st.inserted ∧
  1 ≤ st.inserted ∧
  ∃ ns, rowsFor s st.rows = rowsFor s db.rows ++ [ns] ∧
    latestFor st.rows s = some ns ∧ ns.EventType = "NO_SHOW"

/-- The student's latest event is not `ARRIVED`, and the student's rows
are as in `base`. Preserved by every finalizer step. -/
def PhaseT (s : String) (base : List ScanLog) (st : FinState) : Prop :=
  rowsFor s st.rows = rowsFor s base ∧
  ∃ l, latestFor st.rows s = some l ∧ l.EventType ≠ "ARRIVED"

/-! ### Lemmas: the (timestamp, identifier) order and `pickLatest` -/





theorem keyLE_refl (a : ScanLog) : keyLE a a := Or.inr ⟨rfl, Nat.le_refl _⟩

theorem keyLE_of_keyLT {a b : ScanLog} (h : keyLT a b) : keyLE a b := by
  rcases h with h | ⟨h1, h2⟩
  · exact Or.inl h
  · exact Or.inr ⟨h1, Nat.le_of_lt h2⟩

theorem laterRow_cases (a b : ScanLog) : laterRow a b = a ∨ laterRow a b = b := by
  unfold laterRow
  split
  · exact Or.inr rfl
  · split
    · exact Or.inl rfl
    · split
      · exact Or.inr rfl
      · exact Or.inl rfl

theorem keyLE_laterRow_left (a b : ScanLog) : keyLE a (laterRow a b) := by
  unfold laterRow
  split
  · exact Or.inl (by assumption)
  · split
    · exact keyLE_refl a
    · split
      · rename_i h1 h2 h3
        exact Or.inr ⟨Int.le_antisymm (Int.not_lt.mp h2) (Int.not_lt.mp h1), Nat.le_of_lt h3⟩
      · exact keyLE_refl a

theorem keyLE_laterRow_right (a b : ScanLog) : keyLE b (laterRow a b) := by
  unfold laterRow
  split
  · exact keyLE_refl b
  · split
    · exact Or.inl (by assumption)
    · split
      · exact keyLE_refl b
      · rename_i h1 h2 h3
        exact Or.inr ⟨Int.le_antisymm (Int.not_lt.mp h1) (Int.not_lt.mp h2), Nat.le_of_not_lt h3⟩

theorem laterRow_time (a b : ScanLog) :
    (laterRow a b).EventTimeUtc = max a.EventTimeUtc b.EventTimeUtc := by
  unfold laterRow
  split
  · exact (max_eq_right (Int.le_of_lt (by assumption))).symm
  · split
    · exact (max_eq_left (Int.le_of_lt (by assumption))).symm
    · rename_i h1 h2
      have he : a.EventTimeUtc = b.EventTimeUtc :=
        Int.le_antisymm (Int.not_lt.mp h2) (Int.not_lt.mp h1)
      split
      · rw [← he, max_self]
      · rw [← he, max_self]

theorem pickLatest_eq_none {l : List ScanLog} : pickLatest l = none ↔ l = [] := by
  cases l with
  | nil => simp [pickLatest]
  | cons r rs =>
    simp only [pickLatest]
    cases pickLatest rs <;> simp

theorem pickLatest_mem {l : List ScanLog} {b : ScanLog} (h : pickLatest l = some b) :
    b ∈ l := by
  induction l generalizing b with
  | nil => simp [pickLatest] at h
  | cons r rs ih =>
    simp only [pickLatest] at h
    cases hrs : pickLatest rs with
    | none => rw [hrs] at h; cases h; exact List.mem_cons_self r rs
    | some b' =>
      rw [hrs] at h
      cases h
      rcases laterRow_cases r b' with h | h
      · rw [h]; exact List.mem_cons_self r rs
      · rw [h]; exact List.mem_cons_of_mem r (ih hrs)

theorem pickLatest_isMax {l : List ScanLog} {b r : ScanLog} (hr : r ∈ l)
    (h : pickLatest l = some b) : keyLE r b := by
  induction l generalizing b with
  | nil => cases hr
  | cons x xs ih =>
    simp only [pickLatest] at h
    cases hxs : pickLatest xs with
    | none =>
      rw [hxs] at h
      cases h
      have hn : xs = [] := pickLatest_eq_none.mp hxs
      subst hn
      rcases List.mem_singleton.mp hr with rfl
      exact keyLE_refl r
    | some b' =>
      rw [hxs] at h
      cases h
      rcases List.mem_cons.mp hr with rfl | hmem
      · exact keyLE_laterRow_left r b'
      · rcases (ih hmem hxs) with h | ⟨h1, h2⟩
        · rcases keyLE_laterRow_right x b' with h' | ⟨h1', h2'⟩
          · exact Or.inl (lt_trans h h')
          · exact Or.inl (h1' ▸ h)
        · rcases keyLE_laterRow_right x b' with h' | ⟨h1', h2'⟩
          · exact Or.inl (h1 ▸ h')
          · exact Or.inr ⟨h1.trans h1', Nat.le_trans h2 h2'⟩

theorem laterRow_eq_of_keyLT {a b : ScanLog} (h : keyLT a b) : laterRow a b = b := by
  unfold laterRow
  rcases h with h | ⟨h1, h2⟩
  · simp [h]
  · rw [h1]
    simp [h2]

theorem pickLatest_append_last {l : List ScanLog} {x : ScanLog}
    (h : ∀ r ∈ l, keyLT r x) : pickLatest (l ++ [x]) = some x := by
  induction l with
  | nil => rfl
  | cons r rs ih =>
    have hx : pickLatest (rs ++ [x]) = some x :=
      ih (fun q hq => h q (List.mem_cons_of_mem r hq))
    simp only [List.cons_append, pickLatest, List.append_eq, hx]
    rw [laterRow_eq_of_keyLT (h r (List.mem_cons_self r rs))]

theorem maxTime_of_pickLatest {l : List ScanLog} {b : ScanLog}
    (h : pickLatest l = some b) : maxTime l = some b.EventTimeUtc := by
  induction l generalizing b with
  | nil => simp [pickLatest] at h
  | cons r rs ih =>
    simp only [pickLatest] at h
    cases hrs : pickLatest rs with
    | none =>
      rw [hrs] at h
      cases h
      have hn : rs = [] := pickLatest_eq_none.mp hrs
      subst hn
      rfl
    | some b' =>
      rw [hrs] at h
      cases h
      simp only [maxTime, ih hrs, laterRow_time]

/-! ### Lemmas: `rowsFor` -/

theorem mem_rowsFor {s : String} {rows : List ScanLog} {r : ScanLog} :
    r ∈ rowsFor s rows ↔ r ∈ rows ∧ r.StudentCode = s := by
  simp [rowsFor, List.mem_filter]

theorem rowsFor_append (s : String) (l l2 : List ScanLog) :
    rowsFor s (l ++ l2) = rowsFor s l ++ rowsFor s l2 :=
  List.filter_append _ _

theorem rowsFor_append_single_ne {s : String} (l : List ScanLog) {r : ScanLog}
    (h : r.StudentCode ≠ s) : rowsFor s (l ++ [r]) = rowsFor s l := by
  rw [rowsFor_append]
  have hb : (r.StudentCode == s) = false := beq_eq_false_iff_ne.mpr h
  have hnil : rowsFor s [r] = [] := by
    simp [rowsFor, List.filter_cons, hb]
  rw [hnil, List.append_nil]

theorem rowsFor_append_single_eq {s : String} (l : List ScanLog) {r : ScanLog}
    (h : r.StudentCode = s) : rowsFor s (l ++ [r]) = rowsFor s l ++ [r] := by
  rw [rowsFor_append]
  have hb : (r.StudentCode == s) = true := beq_iff_eq.mpr h
  have hone : rowsFor s [r] = [r] := by
    simp [rowsFor, List.filter_cons, hb]
  rw [hone]

/-! ### Lemmas: the candidate sort -/

theorem mem_insAsc {x a : ScanLog} {l : List ScanLog} :
    x ∈ insAsc a l ↔ x = a ∨ x ∈ l := by
  induction l with
  | nil => simp [insAsc]
  | cons b bs ih =>
    simp only [insAsc]
    split
    · simp only [List.mem_cons, ih]
      tauto
    · simp only [List.mem_cons]

theorem mem_sortAsc {x : ScanLog} {l : List ScanLog} : x ∈ sortAsc l ↔ x ∈ l := by
  induction l with
  | nil => simp [sortAsc]
  | cons r rs ih =>
    simp only [sortAsc, mem_insAsc, List.mem_cons, ih]

theorem length_insAsc (a : ScanLog) (l : List ScanLog) :
    (insAsc a l).length = l.length + 1 := by
  induction l with
  | nil => rfl
  | cons b bs ih =>
    simp only [insAsc]
    split
    · simp [ih]
    · simp

theorem length_sortAsc (l : List ScanLog) : (sortAsc l).length = l.length := by
  induction l with
  | nil => rfl
  | cons r rs ih => simp [sortAsc, length_insAsc, ih]

theorem mem_candidateScan_of {rows : List ScanLog} {cutoff : Int} {r : ScanLog}
    (hr : r ∈ rows) (hp : candPred rows cutoff r = true)
    (hcap : (rows.filter (candPred rows cutoff)).length ≤ 1000) :
    r ∈ candidateScan rows cutoff := by
  unfold candidateScan
  rw [List.take_of_length_le]
  · exact mem_sortAsc.mpr (List.mem_filter.mpr ⟨hr, hp⟩)
  · rw [length_sortAsc]
    exact hcap

/-! ### Lemmas: one finalizer step -/

/-- A finalizer step either leaves the state unchanged, or the re-check
found a latest event that is still `ARRIVED` and at most the cutoff and
the step appended exactly the `NO_SHOW` row. -/
theorem finStep_cases (cutoff now minutes : Int) (st : FinState) (c : ScanLog) :
    finStep cutoff now minutes st c = st ∨
    ∃ la, latestFor st.rows c.StudentCode = some la ∧
      la.EventType = "ARRIVED" ∧ la.EventTimeUtc ≤ cutoff ∧
      finStep cutoff now minutes st c =
        { rows := st.rows ++ [mkNoShow c now st.nextId minutes]
          nextId := st.nextId + 1
          inserted := st.inserted + 1 } := by
  unfold finStep
  cases h : latestFor st.rows c.StudentCode with
  | none => exact Or.inl rfl
  | some la =>
    by_cases hc : la.EventType = "ARRIVED" ∧ la.EventTimeUtc ≤ cutoff
    · exact Or.inr ⟨la, rfl, hc.1, hc.2, by simp [hc]⟩
    · exact Or.inl (by simp [hc])

theorem finStep_insert {cutoff now minutes : Int} {st : FinState} {c la : ScanLog}
    (h : latestFor st.rows c.StudentCode = some la)
    (h1 : la.EventType = "ARRIVED") (h2 : la.EventTimeUtc ≤ cutoff) :
    finStep cutoff now minutes st c =
      { rows := st.rows ++ [mkNoShow c now st.nextId minutes]
        nextId := st.nextId + 1
        inserted := st.inserted + 1 } := by
  unfold finStep
  rw [h]
  simp [h1, h2]



/-- The freshly built `NO_SHOW` row sorts strictly after every row the
student currently has: its timestamp is `now ≥ cutoff` while all of the
student's rows are at most the re-checked latest timestamp `≤ cutoff`, and
its identifier `st.nextId` is larger than every stored identifier. -/
theorem keyLT_mkNoShow {cutoff now minutes : Int} {st : FinState} {c la : ScanLog}
    (hids : StIds st)
    (hla : latestFor st.rows c.StudentCode = some la)
    (h2 : la.EventTimeUtc ≤ cutoff) (hcn : cutoff ≤ now) :
    ∀ r ∈ rowsFor c.StudentCode st.rows, keyLT r (mkNoShow c now st.nextId minutes) := by
  intro r hr
  have hle : keyLE r la := pickLatest_isMax hr hla
  have hrt : r.EventTimeUtc ≤ la.EventTimeUtc := by
    rcases hle with h | ⟨h1, _⟩
    · exact Int.le_of_lt h
    · exact Int.le_of_eq h1
  have hrn : r.EventTimeUtc ≤ now := le_trans hrt (le_trans h2 hcn)
  have hid : r.LogId < st.nextId := hids r (mem_rowsFor.mp hr).1
  rcases lt_or_eq_of_le hrn with hlt | heq
  · exact Or.inl hlt
  · exact Or.inr ⟨heq, hid⟩

/-! ### Phase invariants of a finalizer pass, tracked for one student `s` -/





theorem stepPhaseA_of_ne {db : ScanLogDB} {s : String} {cutoff now minutes : Int}
    {st : FinState} {c : ScanLog}
    (hA : PhaseA db s st) (hc : c.StudentCode ≠ s) :
    PhaseA db s (finStep cutoff now minutes st c) := by
  obtain ⟨hids, hnx, hlen, hrows⟩ := hA
  rcases finStep_cases cutoff now minutes st c with h | ⟨la, _, _, _, h⟩
  · rw [h]; exact ⟨hids, hnx, hlen, hrows⟩
  · rw [h]
    refine ⟨?_, ?_, ?_, ?_⟩
    · intro r hr
      rcases List.mem_append.mp hr with hr | hr
      · exact Nat.lt_succ_of_lt (hids r hr)
      · rcases List.mem_singleton.mp hr with rfl
        exact Nat.lt_succ_self _
    · exact Nat.le_succ_of_le hnx
    · simp only [List.length_append, List.length_singleton]
      omega
    · show rowsFor s (st.rows ++ [mkNoShow c now st.nextId minutes]) = rowsFor s db.rows
      rw [rowsFor_append_single_ne _
        (show (mkNoShow c now st.nextId minutes).StudentCode ≠ s from hc), hrows]

/-- Core of the conversion: from phase A, a candidate row of student `s`
whose re-check still sees an `ARRIVED` latest event at most the cutoff is
converted, and the inserted `NO_SHOW` row becomes the student's latest
event (phase B). -/
theorem stepPhaseA_insert {db : ScanLogDB} {s : String} {cutoff now minutes : Int}
    {st : FinState} {c la : ScanLog}
    (hA : PhaseA db s st) (hc : c.StudentCode = s)
    (hla : latestFor st.rows s = some la)
    (h1 : la.EventType = "ARRIVED") (h2 : la.EventTimeUtc ≤ cutoff)
    (hcn : cutoff ≤ now) :
    PhaseB db s (finStep cutoff now minutes st c) := by
  obtain ⟨hids, hnx, hlen, hrows⟩ := hA
  have hla' : latestFor st.rows c.StudentCode = some la := by rw [hc]; exact hla
  rw [finStep_insert hla' h1 h2]
  have hnscode : (mkNoShow c now st.nextId minutes).StudentCode = s := hc
  have hkey : ∀ r ∈ rowsFor s st.rows, keyLT r (mkNoShow c now st.nextId minutes) := by
    intro r hr
    exact keyLT_mkNoShow hids hla' h2 hcn r (by rw [hc]; exact hr)
  refine ⟨?_, Nat.le_succ_of_le hnx, ?_, Nat.le_add_left 1 _, ?_⟩
  · intro r hr
    rcases List.mem_append.mp hr with hr | hr
    · exact Nat.lt_succ_of_lt (hids r hr)
    · rcases List.mem_singleton.mp hr with rfl
      exact Nat.lt_succ_self _
  · simp only [List.length_append, List.length_singleton]
    omega
  · refine ⟨mkNoShow c now st.nextId minutes, ?_, ?_, rfl⟩
    · rw [rowsFor_append_single_eq _ hnscode, hrows]
    · unfold latestFor
      rw [rowsFor_append_single_eq _ hnscode]
      exact pickLatest_append_last hkey

theorem stepPhaseB {db : ScanLogDB} {s : String} {cutoff now minutes : Int}
    {st : FinState} {c : ScanLog}
    (hB : PhaseB db s st) :
    PhaseB db s (finStep cutoff now minutes st c) := by
  obtain ⟨hids, hnx, hlen, hins, ns, hrows, hlatest, hns⟩ := hB
  rcases finStep_cases cutoff now minutes st c with h | ⟨la, hla, h1, _, h⟩
  · rw [h]; exact ⟨hids, hnx, hlen, hins, ns, hrows, hlatest, hns⟩
  · by_cases hc : c.StudentCode = s
    · exfalso
      rw [hc, hlatest] at hla
      cases hla
      rw [h1] at hns
      exact absurd hns (by decide)
    · rw [h]
      have hnscode : (mkNoShow c now st.nextId minutes).StudentCode ≠ s := hc
      have hrowseq : rowsFor s (st.rows ++ [mkNoShow c now st.nextId minutes]) =
          rowsFor s st.rows := rowsFor_append_single_ne _ hnscode
      refine ⟨?_, Nat.le_succ_of_le hnx, ?_, Nat.le_succ_of_le hins,
        ns, ?_, ?_, hns⟩
      · intro r hr
        rcases List.mem_append.mp hr with hr | hr
        · exact Nat.lt_succ_of_lt (hids r hr)
        · rcases List.mem_singleton.mp hr with rfl
          exact Nat.lt_succ_self _
      · simp only [List.length_append, List.length_singleton]
        omega
      · rw [hrowseq, hrows]
      · unfold latestFor
        rw [hrowseq]
        exact hlatest

theorem stepPhase_any {db : ScanLogDB} {s : String} {cutoff now minutes : Int}
    {st : FinState} {c : ScanLog}
    (h : PhaseA db s st ∨ PhaseB db s st) (hcn : cutoff ≤ now) :
    PhaseA db s (finStep cutoff now minutes st c) ∨
    PhaseB db s (finStep cutoff now minutes st c) := by
  rcases h with hA | hB
  · by_cases hc : c.StudentCode = s
    · cases hla : latestFor st.rows s with
      | none =>
        left
        rcases finStep_cases cutoff now minutes st c with h | ⟨la, hla', _, _, _⟩
        · rw [h]; exact hA
        · rw [hc, hla] at hla'; cases hla'
      | some la =>
        by_cases hcond : la.EventType = "ARRIVED" ∧ la.EventTimeUtc ≤ cutoff
        · exact Or.inr (stepPhaseA_insert hA hc hla hcond.1 hcond.2 hcn)
        · left
          have hla' : latestFor st.rows c.StudentCode = some la := by
            rw [hc]; exact hla
          have hskip : finStep cutoff now minutes st c = st := by
            unfold finStep
            rw [hla']
            simp [hcond]
          rw [hskip]; exact hA
    · exact Or.inl (stepPhaseA_of_ne hA hc)
  · exact Or.inr (stepPhaseB hB)

theorem foldPhaseB {db : ScanLogDB} {s : String} {cutoff now minutes : Int}
    {st : FinState} (cands : List ScanLog)
    (hB : PhaseB db s st) :
    PhaseB db s (cands.foldl (finStep cutoff now minutes) st) := by
  induction cands generalizing st with
  | nil => exact hB
  | cons c cs ih => exact ih (stepPhaseB hB)

theorem foldPhase_any {db : ScanLogDB} {s : String} (cutoff now minutes : Int)
    {st : FinState} (cands : List ScanLog)
    (h : PhaseA db s st ∨ PhaseB db s st) (hcn : cutoff ≤ now) :
    PhaseA db s (cands.foldl (finStep cutoff now minutes) st) ∨
    PhaseB db s (cands.foldl (finStep cutoff now minutes) st) := by
  induction cands generalizing st with
  | nil => exact h
  | cons c cs ih => exact ih (stepPhase_any h hcn)

/-- If some candidate row belongs to student `s`, a pass started in phase A
with `s`'s latest event still a stale `ARRIVED` ends in phase B: the
student is converted (exactly once). -/
theorem foldPhaseA_reach {db : ScanLogDB} {s : String} (cutoff now minutes : Int)
    {st : FinState} {la : ScanLog} (cands : List ScanLog)
    (hA : PhaseA db s st)
    (hmem : ∃ c ∈ cands, c.StudentCode = s)
    (hla : latestFor db.rows s = some la)
    (h1 : la.EventType = "ARRIVED") (h2 : la.EventTimeUtc ≤ cutoff)
    (hcn : cutoff ≤ now) :
    PhaseB db s (cands.foldl (finStep cutoff now minutes) st) := by
  induction cands generalizing st with
  | nil => rcases hmem with ⟨c, hc, _⟩; cases hc
  | cons c cs ih =>
    by_cases hc : c.StudentCode = s
    · have hlast : latestFor st.rows s = some la := by
        unfold latestFor
        rw [hA.2.2.2]
        exact hla
      exact foldPhaseB cs (stepPhaseA_insert hA hc hlast h1 h2 hcn)
    · rcases hmem with ⟨c', hc', hcs⟩
      rcases List.mem_cons.mp hc' with rfl | hmem'
      · exact absurd hcs hc
      · exact ih (stepPhaseA_of_ne hA hc) ⟨c', hmem', hcs⟩

/-! ### Phase T: a student whose latest event is terminal is never touched -/



theorem stepPhaseT {s : String} {base : List ScanLog} {cutoff now minutes : Int}
    {st : FinState} {c : ScanLog}
    (hT : PhaseT s base st) :
    PhaseT s base (finStep cutoff now minutes st c) := by
  obtain ⟨hrows, l, hl, hlt⟩ := hT
  rcases finStep_cases cutoff now minutes st c with h | ⟨la, hla, h1, _, h⟩
  · rw [h]; exact ⟨hrows, l, hl, hlt⟩
  · by_cases hc : c.StudentCode = s
    · exfalso
      rw [hc, hl] at hla
      cases hla
      exact hlt h1
    · rw [h]
      have hnscode : (mkNoShow c now st.nextId minutes).StudentCode ≠ s := hc
      have hrowseq : rowsFor s (st.rows ++ [mkNoShow c now st.nextId minutes]) =
          rowsFor s st.rows := rowsFor_append_single_ne _ hnscode
      refine ⟨by rw [hrowseq, hrows], l, ?_, hlt⟩
      unfold latestFor
      rw [hrowseq]
      exact hl

theorem foldPhaseT {s : String} {base : List ScanLog} {cutoff now minutes : Int}
    {st : FinState} (cands : List ScanLog)
    (hT : PhaseT s base st) :
    PhaseT s base (cands.foldl (finStep cutoff now minutes) st) := by
  induction cands generalizing st with
  | nil => exact hT
  | cons c cs ih => exact ih (stepPhaseT hT)

/-- A full finalizer pass never touches the rows of a student whose
latest event is not `ARRIVED` (a terminal state is never downgraded at
pass level). -/
theorem finalize_keeps_terminal {db : ScanLogDB} {s : String} {l : ScanLog}
    (now minutes : Int)
    (h : latestFor db.rows s = some l) (hl : l.EventType ≠ "ARRIVED") :
    rowsFor s (finalize_expired_arrivals db now minutes).1.rows = rowsFor s db.rows := by
  unfold finalize_expired_arrivals
  have hT : PhaseT s db.rows { rows := db.rows, nextId := db.nextId, inserted := 0 } :=
    ⟨rfl, l, h, hl⟩
  exact (foldPhaseT _ hT).1

/-! ### Lemmas: a stale latest `ARRIVED` row is scanned as a candidate -/

theorem latest_mem_candidateScan {db : ScanLogDB} {s : String} {la : ScanLog} {cutoff : Int}
    (hla : latestFor db.rows s = some la)
    (h1 : la.EventType = "ARRIVED") (h2 : la.EventTimeUtc ≤ cutoff)
    (hcap : (db.rows.filter (candPred db.rows cutoff)).length ≤ 1000) :
    la ∈ candidateScan db.rows cutoff ∧ la.StudentCode = s := by
  have hmem : la ∈ rowsFor s db.rows := pickLatest_mem hla
  obtain ⟨hrows, hcode⟩ := mem_rowsFor.mp hmem
  have hmax : maxTime (rowsFor la.StudentCode db.rows) = some la.EventTimeUtc := by
    rw [hcode]
    exact maxTime_of_pickLatest hla
  have hp : candPred db.rows cutoff la = true := by
    unfold candPred
    rw [decide_eq_true hmax, beq_iff_eq.mpr h1, decide_eq_true h2]
    rfl
  exact ⟨mem_candidateScan_of hrows hp hcap, hcode⟩

/-! ### Lemmas: length and count bookkeeping of a pass -/

theorem foldl_finStep_len (cutoff now minutes : Int) (cands : List ScanLog)
    (st : FinState) :
    (cands.foldl (finStep cutoff now minutes) st).rows.length + st.inserted =
      st.rows.length + (cands.foldl (finStep cutoff now minutes) st).inserted := by
  induction cands generalizing st with
  | nil => rfl
  | cons c cs ih =>
    show (cs.foldl _ (finStep cutoff now minutes st c)).rows.length + st.inserted =
      st.rows.length + (cs.foldl _ (finStep cutoff now minutes st c)).inserted
    rcases finStep_cases cutoff now minutes st c with h | ⟨la, _, _, _, h⟩
    · rw [h]; exact ih st
    · have := ih (finStep cutoff now minutes st c)
      rw [h] at this ⊢
      simp only [List.length_append, List.length_singleton] at this ⊢
      omega

theorem finStep_inserted_le (cutoff now minutes : Int) (st : FinState) (c : ScanLog) :
    (finStep cutoff now minutes st c).inserted ≤ st.inserted + 1 := by
  rcases finStep_cases cutoff now minutes st c with h | ⟨la, _, _, _, h⟩
  · rw [h]; exact Nat.le_succ _
  · rw [h]

theorem foldl_finStep_inserted_le (cutoff now minutes : Int) (cands : List ScanLog)
    (st : FinState) :
    (cands.foldl (finStep cutoff now minutes) st).inserted ≤
      st.inserted + cands.length := by
  induction cands generalizing st with
  | nil => exact Nat.le_refl _
  | cons c cs ih =>
    show (cs.foldl _ (finStep cutoff now minutes st c)).inserted ≤ _
    have h1 := ih (finStep cutoff now minutes st c)
    have h2 := finStep_inserted_le cutoff now minutes st c
    simp only [List.length_cons]
    omega

theorem finalize_len (db : ScanLogDB) (now minutes : Int) :
    (finalize_expired_arrivals db now minutes).1.rows.length =
      db.rows.length + (finalize_expired_arrivals db now minutes).2 := by
  unfold finalize_expired_arrivals
  have := foldl_finStep_len (now - minutes) now minutes
    (candidateScan db.rows (now - minutes))
    { rows := db.rows, nextId := db.nextId, inserted := 0 }
  simpa using this

theorem finalize_count_le (db : ScanLogDB) (now minutes : Int) :
    (finalize_expired_arrivals db now minutes).2 ≤ 1000 := by
  have h1 := foldl_finStep_inserted_le (now - minutes) now minutes
    (candidateScan db.rows (now - minutes))
    { rows := db.rows, nextId := db.nextId, inserted := 0 }
  have h2 : (candidateScan db.rows (now - minutes)).length ≤ 1000 :=
    List.length_take_le _ _
  have h0 : ({ rows := db.rows, nextId := db.nextId, inserted := 0 } : FinState).inserted = 0 :=
    rfl
  rw [h0] at h1
  show (List.foldl (finStep (now - minutes) now minutes)
    { rows := db.rows, nextId := db.nextId, inserted := 0 }
    (candidateScan db.rows (now - minutes))).inserted ≤ 1000
  omega

/-! ### Lemmas: counting rows per student over a distinct code list -/

theorem sum_map_add {α : Type} (L : List α) (f g : α → Nat) :
    (L.map (fun c => f c + g c)).sum = (L.map f).sum + (L.map g).sum := by
  induction L with
  | nil => rfl
  | cons c cs ih =>
    simp only [List.map_cons, List.sum_cons, ih]
    omega

theorem sum_map_eq_of_forall_eq {α : Type} (L : List α) (f : α → Nat) (v : Nat)
    (h : ∀ a ∈ L, f a = v) : (L.map f).sum = L.length * v := by
  induction L with
  | nil => simp
  | cons c cs ih =>
    simp only [List.map_cons, List.sum_cons, List.length_cons]
    rw [h c (List.mem_cons_self c cs), ih (fun a ha => h a (List.mem_cons_of_mem c ha))]
    ring

theorem sum_indicator_le (L : List String) (hL : L.Nodup) (x : String) :
    (L.map (fun c => if x == c then 1 else 0)).sum ≤ 1 := by
  induction L with
  | nil => exact Nat.zero_le 1
  | cons c cs ih =>
    simp only [List.map_cons, List.sum_cons]
    rcases List.nodup_cons.mp hL with ⟨hc, hcs⟩
    by_cases hx : x = c
    · subst hx
      have hz : ∀ y ∈ cs.map (fun c => if x == c then 1 else 0), y = 0 := by
        intro y hy
        rcases List.mem_map.mp hy with ⟨c', hc', rfl⟩
        have hne : x ≠ c' := by
          intro he
          rw [he] at hc
          exact hc hc'
        simp [beq_eq_false_iff_ne.mpr hne]
      rw [List.sum_eq_zero hz]
      simp
    · rw [beq_eq_false_iff_ne.mpr hx]
      simpa using ih hcs

theorem rowsFor_length_cons (c : String) (r : ScanLog) (rs : List ScanLog) :
    (rowsFor c (r :: rs)).length =
      (rowsFor c rs).length + (if r.StudentCode == c then 1 else 0) := by
  unfold rowsFor
  rw [List.filter_cons]
  by_cases h : r.StudentCode = c
  · have hb : (r.StudentCode == c) = true := beq_iff_eq.mpr h
    simp [hb]
  · have hb : (r.StudentCode == c) = false := beq_eq_false_iff_ne.mpr h
    simp [hb]

theorem sum_rowsFor_le (L : List String) (hL : L.Nodup) (rows : List ScanLog) :
    (L.map (fun c => (rowsFor c rows).length)).sum ≤ rows.length := by
  induction rows with
  | nil =>
    have hz : ∀ y ∈ L.map (fun c => (rowsFor c ([] : List ScanLog)).length), y = 0 := by
      intro y hy
      rcases List.mem_map.mp hy with ⟨c, _, rfl⟩
      rfl
    rw [List.sum_eq_zero hz]
    exact Nat.le_refl 0
  | cons r rs ih =>
    have hmap : L.map (fun c => (rowsFor c (r :: rs)).length) =
        L.map (fun c => (rowsFor c rs).length + (if r.StudentCode == c then 1 else 0)) :=
      List.map_congr_left (fun c _ => rowsFor_length_cons c r rs)
    rw [hmap, sum_map_add]
    have hind := sum_indicator_le L hL r.StudentCode
    simp only [List.length_cons]
    omega

/-! ### Lemmas: the 1001-student log -/

theorem cxCode_inj : Function.Injective cxCode := by
  intro i j h
  have hl := congrArg (fun s => s.data.length) h
  simp only [cxCode, List.length_replicate] at hl
  omega

theorem range_filter_beq (n i : Nat) (h : i < n) :
    (List.range n).filter (fun j => j == i) = [i] := by
  induction n with
  | zero => cases h
  | succ n ih =>
    rw [List.range_succ, List.filter_append]
    rcases Nat.lt_succ_iff_lt_or_eq.mp h with h' | rfl
    · rw [ih h']
      have hne : (n == i) = false := beq_eq_false_iff_ne.mpr (Nat.ne_of_gt h')
      simp [List.filter_cons, hne]
    · have hnotmem : ∀ j ∈ List.range i, ¬ ((j == i) = true) := by
        intro j hj hbeq
        exact absurd (beq_iff_eq.mp hbeq) (Nat.ne_of_lt (List.mem_range.mp hj))
      rw [List.filter_eq_nil_iff.mpr hnotmem]
      simp [List.filter_cons]

theorem cx_rowsFor {i n : Nat} (h : i < n) :
    rowsFor (cxCode i) ((List.range n).map cxRow) = [cxRow i] := by
  unfold rowsFor
  rw [List.filter_map]
  have hcongr : (List.range n).filter ((fun r => r.StudentCode == cxCode i) ∘ cxRow) =
      (List.range n).filter (fun j => j == i) := by
    apply List.filter_congr
    intro j _
    show (cxCode j == cxCode i) = (j == i)
    by_cases hji : j = i
    · rw [hji]; simp
    · rw [beq_eq_false_iff_ne.mpr hji,
        beq_eq_false_iff_ne.mpr (fun he => hji (cxCode_inj he))]
  rw [hcongr, range_filter_beq n i h]
  rfl

theorem cx_latest {i : Nat} (h : i < 1001) :
    latestFor cxDB.rows (cxCode i) = some (cxRow i) := by
  unfold latestFor cxDB
  rw [cx_rowsFor h]
  rfl

/-! ### Claim theorems -/

/-- C1: a `NO_SHOW` row is inserted for a candidate's student only if the
re-check performed immediately before the insert still finds that
student's latest event (ordered by timestamp descending, identifier
descending) to be `ARRIVED` with timestamp at most the cutoff; dually, if
the latest event at re-check time is no longer `ARRIVED` (e.g. a terminal
event was recorded between the candidate scan and the re-check) or no
longer within the cutoff, the step changes nothing, so a terminal state is
never downgraded.  `finStep` is the per-candidate body folded by
`finalize_expired_arrivals`, and its state `st.rows` is the table as seen
at re-check time, which may contain writes that landed after the scan. -/
theorem claim_C1 (cutoff now minutes : Int) (st : FinState) (c : ScanLog) :
    (finStep cutoff now minutes st c ≠ st →
      ∃ la, latestFor st.rows c.StudentCode = some la ∧
        la.EventType = "ARRIVED" ∧ la.EventTimeUtc ≤ cutoff) ∧
    (∀ la, latestFor st.rows c.StudentCode = some la →
      (la.EventType ≠ "ARRIVED" ∨ cutoff < la.EventTimeUtc) →
      finStep cutoff now minutes st c = st) := by
  constructor
  · intro hch
    rcases finStep_cases cutoff now minutes st c with h | ⟨la, hla, h1, h2, _⟩
    · exact absurd h hch
    · exact ⟨la, hla, h1, h2⟩
  · intro la hla hterm
    have hcond : ¬ (la.EventType = "ARRIVED" ∧ la.EventTimeUtc ≤ cutoff) := by
      rcases hterm with h | h
      · exact fun hc => h hc.1
      · exact fun hc => absurd hc.2 (Int.not_le.mpr h)
    unfold finStep
    rw [hla]
    simp [hcond]

/-- C1 witness: with the student's latest event a terminal `RIDE`, the
step over the stale `ARRIVED` candidate inserts nothing. -/
theorem claim_C1_witness :
    finStep 95 100 5 ⟨[wArr, wRide], 2, 0⟩ wArr = ⟨[wArr, wRide], 2, 0⟩ :=
  (claim_C1 95 100 5 ⟨[wArr, wRide], 2, 0⟩ wArr).2 wRide (by decide)
    (Or.inl (by decide))

/-- C6: event-type normalization is a function into the canonical
vocabulary: every recognized alias (after case/punctuation normalization
of the input) maps to exactly one canonical kind, every key that directly
uppercases to a canonical kind maps to it, and every other input fails
with a 400 error whose message (`invalidEventTypeMsg`) names the accepted
forms `arrived | ride | no_call | no_show`. -/
theorem claim_C6 (s : String) :
    (∀ e, aliasLookup (normalizeKey s) = some e →
      normalize_event_type s = .ok e ∧ e ∈ VALID_EVENT_TYPES) ∧
    (aliasLookup (normalizeKey s) = none →
      pyUpper (normalizeKey s) ∈ VALID_EVENT_TYPES →
      normalize_event_type s = .ok (pyUpper (normalizeKey s))) ∧
    (aliasLookup (normalizeKey s) = none →
      pyUpper (normalizeKey s) ∉ VALID_EVENT_TYPES →
      normalize_event_type s = .error ⟨400, invalidEventTypeMsg⟩) := by
  refine ⟨?_, ?_, ?_⟩
  · intro e he
    constructor
    · simp [normalize_event_type, he]
    · unfold aliasLookup at he
      rcases Option.map_eq_some'.mp he with ⟨p, hp, hpe⟩
      have hmem := List.mem_of_find?_eq_some hp
      simp only [EVENT_TYPE_ALIASES, List.mem_cons, List.not_mem_nil, or_false] at hmem
      rw [← hpe]
      rcases hmem with rfl | rfl | rfl | rfl | rfl | rfl | rfl | rfl | rfl | rfl | rfl <;> decide
  · intro hn hup
    simp [normalize_event_type, hn, hup]
  · intro hn hup
    simp [normalize_event_type, hn, hup]

/-- C6 witness: an unrecognized value fails with the 400 message naming
the accepted forms; a recognized alias (case/punctuation-insensitively)
maps to its canonical kind. -/
theorem claim_C6_witness :
    normalize_event_type "banana" = .error ⟨400, invalidEventTypeMsg⟩ ∧
    normalize_event_type " Boarded! " = .ok "RIDE" := by
  constructor
  · exact (claim_C6 "banana").2.2 (by decide) (by decide)
  · exact ((claim_C6 " Boarded! ").1 "RIDE" (by decide)).1

/-- C7: a `POST /scan` whose (normalized, non-empty) student code has no
roster entry fails with the 404 error `Student not found` and leaves the
committed event log unchanged — the transaction, including any inserts of
the inline finalizer pass, is rolled back when the connection closes
without a commit. -/
theorem claim_C7 (students : List Student) (db : ScanLogDB) (req : ScanRequest)
    (now minutes : Int) (code et : String)
    (hcode : normalize_student_code req.student_code = .ok code)
    (het : normalize_event_type req.event_type = .ok et)
    (hs : students.find? (fun x => x.StudentCode == code) = none) :
    scan_student students db req now minutes =
      (db, .error ⟨404, "Student not found"⟩, []) := by
  simp [scan_student, hcode, het, hs]

/-- C7 witness: an unknown code against a log that even contains a stale
`ARRIVED` candidate: 404, and the committed log is exactly the original. -/
theorem claim_C7_witness :
    scan_student [wStudent] wDB { wReq with student_code := "STU-9999" } 100 5 =
      (wDB, .error ⟨404, "Student not found"⟩, []) :=
  claim_C7 [wStudent] wDB { wReq with student_code := "STU-9999" } 100 5
    "STU-9999" "RIDE" (by decide) (by decide) (by decide)

/-- C8: every successfully recorded event is persisted with the
server-clock reading `now` taken during the request as its
`EventTimeUtc` — for every request body, the response row and the row
appended to the log carry exactly that timestamp.  `ScanRequest` has no
timestamp field, so the value cannot be client-supplied. -/
theorem claim_C8 (students : List Student) (db : ScanLogDB) (req : ScanRequest)
    (now minutes : Int) (code et : String) (s : Student)
    (hcode : normalize_student_code req.student_code = .ok code)
    (het : normalize_event_type req.event_type = .ok et)
    (hs : students.find? (fun x => x.StudentCode == code) = some s) :
    ∃ row, (scan_student students db req now minutes).2.1 = .ok row ∧
      row.EventTimeUtc = now ∧
      (scan_student students db req now minutes).1.rows.getLast? = some row := by
  simp only [scan_student, hcode, het, hs]
  exact ⟨_, rfl, rfl, List.getLast?_concat _⟩

/-- C8 witness at a concrete request and clock reading. -/
theorem claim_C8_witness :
    ∃ row, (scan_student [wStudent] wDB wReq 100 5).2.1 = .ok row ∧
      row.EventTimeUtc = 100 ∧
      (scan_student [wStudent] wDB wReq 100 5).1.rows.getLast? = some row :=
  claim_C8 [wStudent] wDB wReq 100 5 "STU-1001" "RIDE" wStudent
    (by decide) (by decide) (by decide)

/-- C5 counterexample: the claim asserts the response carries a derived
parent-contact flag that is `false` for a student without a parent phone
and `true` for a student with one.  No function of the response can be
such a flag: two scans that differ only in the student's `ParentPhone`
(absent vs `555-0100`) produce identical responses, because
`scan_student` never reads the fetched `ParentPhone` column. -/
theorem claim_C5_counterexample :
    ¬ ∃ f : Except HTTPException ScanLog → Bool,
        f (scan_student [wStudent] { rows := [], nextId := 5 } wReq 100 5).2.1 = false ∧
        f (scan_student [wStudentPhone] { rows := [], nextId := 5 } wReq 100 5).2.1 = true := by
  rintro ⟨f, h1, h2⟩
  have he : (scan_student [wStudent] { rows := [], nextId := 5 } wReq 100 5).2.1 =
      (scan_student [wStudentPhone] { rows := [], nextId := 5 } wReq 100 5).2.1 := by
    decide
  rw [he] at h1
  rw [h1] at h2
  exact absurd h2 (by decide)

/-- C5 as amended: the response of a successful `POST /scan` is exactly
the full persisted row — the row appended to the committed log, carrying
the assigned identifier and the server timestamp — and no parent-contact
flag is part of the response. -/
theorem claim_C5_amended (students : List Student) (db : ScanLogDB) (req : ScanRequest)
    (now minutes : Int) (code et : String) (s : Student)
    (hcode : normalize_student_code req.student_code = .ok code)
    (het : normalize_event_type req.event_type = .ok et)
    (hs : students.find? (fun x => x.StudentCode == code) = some s) :
    ∃ row,
      scan_student students db req now minutes =
        ({ rows := (finalize_expired_arrivals db now minutes).1.rows ++ [row]
           nextId := (finalize_expired_arrivals db now minutes).1.nextId + 1 },
         .ok row,
         if et = "ARRIVED" then [⟨code, now, minutes⟩] else []) ∧
      row.LogId = (finalize_expired_arrivals db now minutes).1.nextId ∧
      row.StudentCode = code ∧ row.StudentName = s.StudentName ∧
      row.DOB = s.DOB ∧ row.BusNumber = s.BusNumber ∧
      row.EventType = et ∧ row.EventTimeUtc = now ∧
      row.DriverCode = req.driver_code ∧ row.AideCode = req.aide_code ∧
      row.StopCode = req.stop_code ∧ row.Notes = req.notes := by
  simp only [scan_student, hcode, het, hs]
  exact ⟨_, rfl, rfl, rfl, rfl, rfl, rfl, rfl, rfl, rfl, rfl, rfl, rfl⟩

/-- C5 amended witness at a concrete roster, log and request. -/
theorem claim_C5_amended_witness :
    ∃ row,
      scan_student [wStudent] wDB wReq 100 5 =
        ({ rows := (finalize_expired_arrivals wDB 100 5).1.rows ++ [row]
           nextId := (finalize_expired_arrivals wDB 100 5).1.nextId + 1 },
         .ok row,
         if "RIDE" = "ARRIVED" then [⟨"STU-1001", 100, 5⟩] else []) ∧
      row.LogId = (finalize_expired_arrivals wDB 100 5).1.nextId ∧
      row.StudentCode = "STU-1001" ∧ row.StudentName = wStudent.StudentName ∧
      row.DOB = wStudent.DOB ∧ row.BusNumber = wStudent.BusNumber ∧
      row.EventType = "RIDE" ∧ row.EventTimeUtc = 100 ∧
      row.DriverCode = wReq.driver_code ∧ row.AideCode = wReq.aide_code ∧
      row.StopCode = wReq.stop_code ∧ row.Notes = wReq.notes :=
  claim_C5_amended [wStudent] wDB wReq 100 5 "STU-1001" "RIDE" wStudent
    (by decide) (by decide) (by decide)

/-- C9: a successful `POST /scan` queues exactly one deferred finalize
task if and only if the recorded kind is the pending state `ARRIVED`, the
task fires after the configured timeout (`time.sleep(max(0, minutes*60))`),
and the task never surfaces an error to any caller: it is a total
function on the committed state; if the student's latest event is no
longer `ARRIVED` when it fires it changes nothing, and a storage fault
during its run is swallowed leaving the state unchanged. -/
theorem claim_C9 (students : List Student) (db : ScanLogDB) (req : ScanRequest)
    (now minutes : Int) (code et : String) (s : Student)
    (hcode : normalize_student_code req.student_code = .ok code)
    (het : normalize_event_type req.event_type = .ok et)
    (hs : students.find? (fun x => x.StudentCode == code) = some s) :
    ((scan_student students db req now minutes).2.2 =
      if et = "ARRIVED" then [⟨code, now, minutes⟩] else []) ∧
    taskDelaySeconds ⟨code, now, minutes⟩ = max 0 (minutes * 60) ∧
    (∀ (db2 : ScanLogDB) (t : BgTask) (fireTime : Int) (l : ScanLog),
      latestFor db2.rows t.student_code = some l → l.EventType ≠ "ARRIVED" →
      schedule_auto_no_show db2 t fireTime false = db2) ∧
    (∀ (db2 : ScanLogDB) (t : BgTask) (fireTime : Int),
      schedule_auto_no_show db2 t fireTime true = db2) := by
  refine ⟨?_, rfl, ?_, ?_⟩
  · simp [scan_student, hcode, het, hs]
  · intro db2 t fireTime l hl hne
    unfold schedule_auto_no_show
    rw [hl]
    simp [hne]
  · intro db2 t fireTime
    rfl

/-- C9 witness: recording `arrived` queues exactly one task; the task
fired against a log whose latest event is the terminal `RIDE` changes
nothing. -/
theorem claim_C9_witness :
    (scan_student [wStudent] { rows := [], nextId := 0 } wReqArr 100 5).2.2 =
      [⟨"STU-1001", 100, 5⟩] ∧
    schedule_auto_no_show wDBRide wTask 100 false = wDBRide := by
  have h := claim_C9 [wStudent] { rows := [], nextId := 0 } wReqArr 100 5
    "STU-1001" "ARRIVED" wStudent (by decide) (by decide) (by decide)
  exact ⟨by rw [h.1]; rfl, h.2.2.1 wDBRide wTask 100 wRide (by decide) (by decide)⟩

/-! ### C3: fault propagation through a pass -/

theorem foldl_finStepF_none (cutoff now minutes : Int) (failOn : Nat → Bool)
    (cands : List ScanLog) :
    cands.foldl (finStepF cutoff now minutes failOn) none = none := by
  induction cands with
  | nil => rfl
  | cons c cs ih => exact ih

/-- A faultless run of the fault-aware loop computes exactly the pure
pass: if no statement raised, the result is the full batch. -/
theorem foldl_finStepF_some (cutoff now minutes : Int) (failOn : Nat → Bool)
    (cands : List ScanLog) (st st' : FinState)
    (h : cands.foldl (finStepF cutoff now minutes failOn) (some st) = some st') :
    st' = cands.foldl (finStep cutoff now minutes) st := by
  induction cands generalizing st with
  | nil => cases h; rfl
  | cons c cs ih =>
    rw [List.foldl_cons] at h
    cases e : finStepF cutoff now minutes failOn (some st) c with
    | none =>
      rw [e, foldl_finStepF_none] at h
      cases h
    | some st1 =>
      have hst1 : st1 = finStep cutoff now minutes st c := by
        cases hl : latestFor st.rows c.StudentCode with
        | none =>
          simp only [finStepF, hl] at e
          cases e
          unfold finStep
          rw [hl]
        | some la =>
          simp only [finStepF, hl] at e
          by_cases hcond : la.EventType = "ARRIVED" ∧ la.EventTimeUtc ≤ cutoff
          · rw [if_pos hcond] at e
            by_cases hf : failOn st.inserted
            · rw [if_pos hf] at e; cases e
            · rw [if_neg hf] at e
              cases e
              exact (finStep_insert hl hcond.1 hcond.2).symm
          · rw [if_neg hcond] at e
            cases e
            unfold finStep
            rw [hl]
            simp [hcond]
      rw [e] at h
      rw [List.foldl_cons, ← hst1]
      exact ih st1 h

/-- C3: a finalizer pass is all-or-nothing at its commit boundary.  If any
statement of the batch faults, the route commits nothing: the committed
log is exactly the one the pass started from and the outcome is an error
(zero conversions).  If the pass succeeds, the committed log and the
returned count are exactly those of the full pure pass — every
checked-and-valid candidate converted, in one commit. -/
theorem claim_C3 (db : ScanLogDB) (now minutes : Int) (failOn : Nat → Bool) :
    (∀ e, (finalize_now db now minutes failOn).2 = .error e →
      (finalize_now db now minutes failOn).1 = db) ∧
    (∀ k, (finalize_now db now minutes failOn).2 = .ok k →
      finalize_now db now minutes failOn =
        ((finalize_expired_arrivals db now minutes).1,
          .ok (finalize_expired_arrivals db now minutes).2)) := by
  unfold finalize_now
  cases hfold : (candidateScan db.rows (now - minutes)).foldl
      (finStepF (now - minutes) now minutes failOn)
      (some { rows := db.rows, nextId := db.nextId, inserted := 0 }) with
  | none =>
    simp only [hfold]
    constructor
    · intro e _
      trivial
    · intro k hk
      cases hk
  | some st =>
    simp only [hfold]
    constructor
    · intro e he
      cases he
    · intro k _
      have hpure := foldl_finStepF_some (now - minutes) now minutes failOn
        (candidateScan db.rows (now - minutes))
        { rows := db.rows, nextId := db.nextId, inserted := 0 } st hfold
      rw [hpure]
      rfl

/-- C3 witness: with a fault injected on the first insert, the committed
log is unchanged; the same pass without faults commits its one
conversion. -/
theorem claim_C3_witness :
    (finalize_now wDB 100 5 (fun k => k == 0)).1 = wDB ∧
    (finalize_now wDB 100 5 (fun _ => false)).2 = .ok 1 := by
  constructor
  · exact (claim_C3 wDB 100 5 (fun k => k == 0)).1 "storage fault" (by decide)
  · have h := (claim_C3 wDB 100 5 (fun _ => false)).2 1 (by decide)
    rw [h]
    decide

/-- C4 (evaluating the code at the failing input): the log holds one
student whose only event is `ARRIVED` at time 0; at `now = 100` with a
5-minute timeout, the inline finalizer pass of `GET /logs/recent` does
convert (one `NO_SHOW` row inside the transaction, visible in the
response, newest first) — but the handler then calls `conn.rollback()`,
so the committed event log it returns is exactly the original: the
conversion does not take effect as a persisted side effect. -/
theorem claim_C4_bug_eval :
    (finalize_expired_arrivals wDB 100 5).2 = 1 ∧
    (finalize_expired_arrivals wDB 100 5).1.rows = [wArr, mkNoShow wArr 100 1 5] ∧
    (recent_logs wDB 100 5 50).2 = [mkNoShow wArr 100 1 5, wArr] ∧
    (recent_logs wDB 100 5 50).1 = wDB := by
  decide

/-- C10: one finalizer pass inserts at most one `NO_SHOW` row per student
code, although the candidate scan can return several rows of one student
(its latest-row selection has no identifier tie-break, so rows tied at
the maximum timestamp all qualify): after the first conversion, the
per-candidate re-check sees the just-inserted `NO_SHOW` as the student's
latest event and skips.  Stated as: the student's row count grows by at
most one in a pass. -/
theorem claim_C10 (db : ScanLogDB) (now minutes : Int) (s : String)
    (hwf : ∀ r ∈ db.rows, r.LogId < db.nextId) (hm : 0 ≤ minutes) :
    (rowsFor s (finalize_expired_arrivals db now minutes).1.rows).length ≤
      (rowsFor s db.rows).length + 1 := by
  have hcn : now - minutes ≤ now := by omega
  have hA : PhaseA db s { rows := db.rows, nextId := db.nextId, inserted := 0 } :=
    ⟨hwf, Nat.le_refl _, rfl, rfl⟩
  have h := foldPhase_any (now - minutes) now minutes
    (candidateScan db.rows (now - minutes)) (Or.inl hA) hcn
  show (rowsFor s ((candidateScan db.rows (now - minutes)).foldl
      (finStep (now - minutes) now minutes)
      { rows := db.rows, nextId := db.nextId, inserted := 0 }).rows).length ≤
    (rowsFor s db.rows).length + 1
  rcases h with hA' | hB'
  · rw [hA'.2.2.2]
    omega
  · obtain ⟨_, _, _, _, ns, hrows, _, _⟩ := hB'
    rw [hrows]
    simp

/-- C10 witness: two `ARRIVED` rows of one student tied at the maximum
timestamp — both are scanned as candidates, yet at most one `NO_SHOW` is
inserted. -/
theorem claim_C10_witness :
    (rowsFor "STU-1001" (finalize_expired_arrivals wDBTie 100 5).1.rows).length ≤
      (rowsFor "STU-1001" wDBTie.rows).length + 1 :=
  claim_C10 wDBTie 100 5 "STU-1001" (by decide) (by decide)

/-- C2 as amended: for a student whose latest event is `ARRIVED` at time
`T ≤ now - minutes`, **provided the pre-cap candidate set does not exceed
the batch cap `TOP (1000)`**, one finalizer pass appends exactly one new
`NO_SHOW` row for that student, the returned count (the total number of
rows the pass appended) includes it, and a second pass straight after —
at any later clock reading — appends no further row for that student. -/
theorem claim_C2_amended (db : ScanLogDB) (now minutes now2 : Int) (s : String)
    (la : ScanLog)
    (hwf : ∀ r ∈ db.rows, r.LogId < db.nextId)
    (hm : 0 ≤ minutes)
    (hla : latestFor db.rows s = some la)
    (h1 : la.EventType = "ARRIVED")
    (h2 : la.EventTimeUtc ≤ now - minutes)
    (hcap : (db.rows.filter (candPred db.rows (now - minutes))).length ≤ 1000) :
    ∃ ns,
      rowsFor s (finalize_expired_arrivals db now minutes).1.rows =
        rowsFor s db.rows ++ [ns] ∧
      ns.EventType = "NO_SHOW" ∧
      1 ≤ (finalize_expired_arrivals db now minutes).2 ∧
      (finalize_expired_arrivals db now minutes).1.rows.length =
        db.rows.length + (finalize_expired_arrivals db now minutes).2 ∧
      rowsFor s (finalize_expired_arrivals
          (finalize_expired_arrivals db now minutes).1 now2 minutes).1.rows =
        rowsFor s (finalize_expired_arrivals db now minutes).1.rows := by
  have hcn : now - minutes ≤ now := by omega
  have hA : PhaseA db s { rows := db.rows, nextId := db.nextId, inserted := 0 } :=
    ⟨hwf, Nat.le_refl _, rfl, rfl⟩
  have hmemc := latest_mem_candidateScan hla h1 h2 hcap
  have hB := foldPhaseA_reach (now - minutes) now minutes
    (candidateScan db.rows (now - minutes)) hA
    ⟨la, hmemc.1, hmemc.2⟩ hla h1 h2 hcn
  obtain ⟨hids, hnx, hlen, hins, ns, hrows, hlatest, hns⟩ := hB
  have hfinrows : (finalize_expired_arrivals db now minutes).1.rows =
      ((candidateScan db.rows (now - minutes)).foldl
        (finStep (now - minutes) now minutes)
        { rows := db.rows, nextId := db.nextId, inserted := 0 }).rows := rfl
  have hfincount : (finalize_expired_arrivals db now minutes).2 =
      ((candidateScan db.rows (now - minutes)).foldl
        (finStep (now - minutes) now minutes)
        { rows := db.rows, nextId := db.nextId, inserted := 0 }).inserted := rfl
  refine ⟨ns, ?_, hns, ?_, finalize_len db now minutes, ?_⟩
  · rw [hfinrows]
    exact hrows
  · rw [hfincount]
    exact hins
  · have hterm : latestFor (finalize_expired_arrivals db now minutes).1.rows s = some ns := by
      rw [hfinrows]
      exact hlatest
    have hne : ns.EventType ≠ "ARRIVED" := by
      rw [hns]
      decide
    exact finalize_keeps_terminal now2 minutes hterm hne

/-- C2 amended witness: the single-student log converts exactly once at
`now = 100`, and the immediately following pass at `now = 101` adds
nothing for that student. -/
theorem claim_C2_amended_witness :
    ∃ ns,
      rowsFor "STU-1001" (finalize_expired_arrivals wDB 100 5).1.rows =
        rowsFor "STU-1001" wDB.rows ++ [ns] ∧
      ns.EventType = "NO_SHOW" ∧
      1 ≤ (finalize_expired_arrivals wDB 100 5).2 ∧
      (finalize_expired_arrivals wDB 100 5).1.rows.length =
        wDB.rows.length + (finalize_expired_arrivals wDB 100 5).2 ∧
      rowsFor "STU-1001" (finalize_expired_arrivals
          (finalize_expired_arrivals wDB 100 5).1 101 5).1.rows =
        rowsFor "STU-1001" (finalize_expired_arrivals wDB 100 5).1.rows :=
  claim_C2_amended wDB 100 5 101 "STU-1001" wArr (by decide) (by decide)
    (by decide) (by decide) (by decide) (by decide)

set_option maxRecDepth 8000

/-- C2 counterexample: the claim as stated fails on the batch cap.  In a
log of 1001 students whose latest events are all stale `ARRIVED` rows
(each satisfying the claim's premise), one pass cannot append one new row
for every one of them: the candidate query takes `TOP (1000)`, so the
pass appends at most 1000 rows, while the claim would force 1001 distinct
students to each gain a row. -/
theorem claim_C2_counterexample :
    ¬ (∀ i : Nat, i < 1001 →
        (∃ la, latestFor cxDB.rows (cxCode i) = some la ∧
          la.EventType = "ARRIVED" ∧ la.EventTimeUtc ≤ 3000 - 5) →
        (rowsFor (cxCode i) (finalize_expired_arrivals cxDB 3000 5).1.rows).length =
          (rowsFor (cxCode i) cxDB.rows).length + 1) := by
  intro h
  have hnew : ∀ i ∈ List.range 1001,
      (rowsFor (cxCode i) (finalize_expired_arrivals cxDB 3000 5).1.rows).length = 2 := by
    intro i hi
    have hilt : i < 1001 := List.mem_range.mp hi
    have hla : latestFor cxDB.rows (cxCode i) = some (cxRow i) := cx_latest hilt
    have hprem : ∃ la, latestFor cxDB.rows (cxCode i) = some la ∧
        la.EventType = "ARRIVED" ∧ la.EventTimeUtc ≤ 3000 - 5 := by
      refine ⟨cxRow i, hla, rfl, ?_⟩
      show (i : Int) ≤ 3000 - 5
      omega
    have hold : (rowsFor (cxCode i) cxDB.rows).length = 1 := by
      show (rowsFor (cxCode i) ((List.range 1001).map cxRow)).length = 1
      rw [cx_rowsFor hilt]
      rfl
    rw [h i hilt hprem, hold]
  have hnodup : ((List.range 1001).map cxCode).Nodup :=
    (List.nodup_range 1001).map cxCode_inj
  have hsum_le := sum_rowsFor_le ((List.range 1001).map cxCode) hnodup
    (finalize_expired_arrivals cxDB 3000 5).1.rows
  have hall : ∀ c ∈ (List.range 1001).map cxCode,
      (rowsFor c (finalize_expired_arrivals cxDB 3000 5).1.rows).length = 2 := by
    intro c hc
    rcases List.mem_map.mp hc with ⟨i, hi, rfl⟩
    exact hnew i hi
  have hsum2 := sum_map_eq_of_forall_eq ((List.range 1001).map cxCode)
    (fun c => (rowsFor c (finalize_expired_arrivals cxDB 3000 5).1.rows).length) 2 hall
  rw [hsum2] at hsum_le
  have hlenL : ((List.range 1001).map cxCode).length = 1001 := by
    rw [List.length_map, List.length_range]
  rw [hlenL] at hsum_le
  have hlen1001 : cxDB.rows.length = 1001 := by
    show ((List.range 1001).map cxRow).length = 1001
    rw [List.length_map, List.length_range]
  have hflen := finalize_len cxDB 3000 5
  have hcnt := finalize_count_le cxDB 3000 5
  omega

end SpedBus
